import Mathlib

/-!
Verification of the core of mtail-f.c (mtail-f: follow NUL-padded,
memory-mapped log files).

Shallow embedding conventions:
  - byte values are Nat; a read chunk is a List Nat (chunk-relative bytes)
    or, for the pure scanner find_end_index, a total function Nat → Nat
    giving the byte at each chunk offset (the C function may legally read
    one byte past its limit argument, so the buffer must extend past it);
  - C ints are Nat where the source keeps them non-negative, Int where
    .signed arithmetic matters (find_end_index result, move_by, fseek);
  - the FILE* side effects are made explicit: getdelim results appear as
    chunk inputs, stdout writes as event lists, the read cursor as
    explicit arithmetic;
  - heap records are held by value: the ring buffer stores the record
    itself where the C stores a malloc'ed copy (the per-slot allocation
    sizing of enqueue is a memory-level concern with no value-level
    content).
-/

/-- Loop of find_end_index (mtail-f.c:311-314):
while (buf[i] != end_marker && i < limit) i++;
The second argument of the recursion is the remaining budget limit - i,
so the loop stops at the first marker byte or at i = limit, whichever
comes first.  Note the C condition reads buf[i] before testing i < limit,
so the byte at offset limit itself is inspected by the caller's final
test. -/
def find_from (buf : Nat → Nat) (end_marker : Nat) : Nat → Nat → Nat
  | i, 0 => i
  | i, r + 1 => if buf i ≠ end_marker then find_from buf end_marker (i + 1) r else i

/-- find_end_index (mtail-f.c:309-320): first index of end_marker in buf,
scanning from 0 with the loop above, then returning i if buf[i] equals the
marker and -1 otherwise.  Because the loop can stop at i = limit, the byte
one past the limit is also examined. -/
def find_end_index (buf : Nat → Nat) (end_marker : Nat) (limit : Nat) : Int :=
  let i := find_from buf end_marker 0 limit
  if buf i = end_marker then (i : Int) else -1

/-- move_by computation (mtail-f.c:391-392):
move_by = read_chars - find_end_index(buf, end_marker, read_chars). -/
def move_by (buf : Nat → Nat) (end_marker : Nat) (read_chars : Nat) : Int :=
  (read_chars : Int) - find_end_index buf end_marker read_chars

/-- Cursor position after the rewind seek (mtail-f.c:395-397):
the chunk of length read_chars was read starting at byte offset pos, so the
cursor sits at pos + read_chars; fseek(fp, -move_by, SEEK_CUR) moves it back
by move_by. -/
def cursor_after_rewind (pos : Nat) (buf : Nat → Nat) (end_marker : Nat)
    (read_chars : Nat) : Int :=
  ((pos : Int) + (read_chars : Int)) - move_by buf end_marker read_chars

/-- ring_buffer_t (mtail-f.c:75-80).  line is the malloc'ed char** array:
none models the NULL pointer (after print_ring_buffer frees it), some arr
models a live array of capacity slots, each slot none (NULL) or some record. -/
structure ring_buffer (α : Type) where
  latest_index : Nat
  capacity : Nat
  size : Nat
  line : Option (List (Option α))
  deriving DecidableEq

/-- ring_buffer_init (mtail-f.c:207-214): zeroed struct, capacity set,
latest_index set to capacity, line array allocated and zeroed.  The malloc
is unconditional, also for capacity 0 (glibc malloc(0) yields a unique
non-NULL pointer, modelled as the empty live array). -/
def ring_buffer_init {α : Type} (capacity : Nat) : ring_buffer α :=
  { latest_index := capacity, capacity := capacity, size := 0,
    line := some (List.replicate capacity none) }

/-- Slot index chosen by enqueue (mtail-f.c:161-165): latest_index is
incremented, wrapped to 0 once it reaches capacity, and the record is
stored through rb->line[that index].  At capacity 0 this still evaluates
to 0 even though the line allocation holds no slots at all. -/
def enqueue_slot_index {α : Type} (rb : ring_buffer α) : Nat :=
  if rb.capacity ≤ rb.latest_index + 1 then 0 else rb.latest_index + 1

/-- enqueue (mtail-f.c:157-180): advance latest_index with wraparound at
capacity, store the record in that slot (the C reallocates or reuses the
slot's storage and strncpy's the bytes; by value the slot now holds this
record), and grow size while below capacity.  Faithful for capacity at
least 1, where the computed slot is in range of the line array; at
capacity 0 the C reads and writes rb->line[0] out of bounds of the
malloc(0) allocation (undefined behavior), which a value-level List.set
cannot express — it drops the out-of-range write instead.  The capacity-0
case is therefore treated as the defect it is (see the zero-capacity
out-of-bounds theorem), not as a faithful no-op. -/
def enqueue {α : Type} (rb : ring_buffer α) (v : α) : ring_buffer α :=
  let li := enqueue_slot_index rb
  { rb with
      latest_index := li
      size := if rb.size < rb.capacity then rb.size + 1 else rb.size
      line := rb.line.map fun arr => arr.set li (some v) }

/-- Reading loop of print_ring_buffer (mtail-f.c:193-201): size iterations;
each iteration first wraps oldest_index to 0 when it reaches size, then
prints slot oldest_index and advances.  Each printed slot is freed right
after being printed and is never revisited (the size visited indices are
pairwise distinct), and the whole array is freed afterwards, so the reads
are from the array as it was on entry. -/
def read_slots {α : Type} (arr : List (Option α)) (s : Nat) :
    Nat → Nat → List (Option α)
  | _, 0 => []
  | o, k + 1 =>
    let o1 := if s ≤ o then 0 else o
    arr.getD o1 none :: read_slots arr s (o1 + 1) k

/-- print_ring_buffer (mtail-f.c:185-205): if the line array is NULL,
return immediately printing nothing; otherwise print the size stored
records starting at latest_index + 1 (wrapping at size), free every slot
and then the array itself (line becomes none).  Result: the buffer after
the call, and the printed records in order. -/
def print_ring_buffer {α : Type} (rb : ring_buffer α) :
    ring_buffer α × List (Option α) :=
  match rb.line with
  | none => (rb, [])
  | some arr =>
    ({ rb with line := none }, read_slots arr rb.size (rb.latest_index + 1) rb.size)

/-- file_data_t (mtail-f.c:82-89) minus the FILE* handle (made explicit as
chunk inputs/cursor arithmetic). -/
structure file_data (α : Type) where
  rb : ring_buffer α
  end_reached : Bool
  delim : Nat
  deriving DecidableEq

/-- Per-target initialization (mtail-f.c:336-342): buffer of capacity
num_lines, end_reached iff num_lines == 0, delimiter from the params. -/
def file_data_init {α : Type} (num_lines : Nat) (delim : Nat) : file_data α :=
  { rb := ring_buffer_init num_lines, end_reached := num_lines == 0, delim := delim }

instance {α : Type} : Inhabited (ring_buffer α) := ⟨ring_buffer_init 0⟩

instance {α : Type} : Inhabited (file_data α) :=
  ⟨{ rb := ring_buffer_init 0, end_reached := true, delim := 0 }⟩

/-- Observable stdout writes of the poll loop: a file-name header for
target i, a directly emitted record of target i, or the output of a
buffer drain performed while processing target i. -/
inductive fevent (α : Type) where
  | header (i : Nat)
  | emit (i : Nat) (record : α)
  | drain (i : Nat) (out : List (Option α))
  deriving DecidableEq

/-- State and output of processing one chunk for one target: the target's
file_data, the global last_file_printed, the per-round print_file_name
flag, and the stdout events produced. -/
structure step_out (α : Type) where
  ts : file_data α
  last : Int
  flag : Bool
  evs : List (fevent α)
  deriving DecidableEq

/-- First half of the getdelim loop body (mtail-f.c:366-381): if the
chunk's first byte is not the end_marker, possibly print the one-per-switch
file-name header (when the flag is still set and this target is not the
last one printed), then either print the chunk (end_reached) or enqueue it
(still collecting the last n lines). -/
def phase1 (end_marker : Nat) (i : Nat) (ts : file_data (List Nat)) (last : Int)
    (flag : Bool) (chunk : List Nat) : step_out (List Nat) :=
  if chunk.headD 0 = end_marker then ⟨ts, last, flag, []⟩
  else
    let hdr := flag && last != (i : Int)
    let last1 : Int := if hdr then (i : Int) else last
    let flag1 : Bool := if hdr then false else flag
    let hevs : List (fevent (List Nat)) := if hdr then [fevent.header i] else []
    if ts.end_reached then ⟨ts, last1, flag1, hevs ++ [fevent.emit i chunk]⟩
    else ⟨{ ts with rb := enqueue ts.rb chunk }, last1, flag1, hevs⟩

/-- Second half of the getdelim loop body (mtail-f.c:383-402): if the
chunk's last byte is the end_marker then, when the boundary was not yet
reached, drain the ring buffer to stdout, mark the boundary reached and
switch this target's delimiter to the end_marker.  (The cursor rewind that
also happens here is pure fseek arithmetic, modelled by
cursor_after_rewind; the break is modelled in process_chunks.) -/
def phase2 (end_marker : Nat) (i : Nat) (chunk : List Nat)
    (s : step_out (List Nat)) : step_out (List Nat) :=
  if chunk.getLastD 0 = end_marker then
    if s.ts.end_reached then s
    else
      { ts := { rb := (print_ring_buffer s.ts.rb).1, end_reached := true,
                delim := end_marker },
        last := s.last, flag := s.flag,
        evs := s.evs ++ [fevent.drain i (print_ring_buffer s.ts.rb).2] }
  else s

/-- One full iteration of the inner getdelim loop (mtail-f.c:359-403) for a
chunk with read_chars > 0. -/
def process_chunk (end_marker : Nat) (i : Nat) (ts : file_data (List Nat))
    (last : Int) (flag : Bool) (chunk : List Nat) : step_out (List Nat) :=
  phase2 end_marker i chunk (phase1 end_marker i ts last flag chunk)

/-- The inner while loop for one target within one poll round: process the
chunks getdelim yields in order, stopping (break, mtail-f.c:401) right
after a chunk whose last byte is the end_marker. -/
def process_chunks (end_marker : Nat) (i : Nat) :
    file_data (List Nat) → Int → Bool → List (List Nat) → step_out (List Nat)
  | ts, last, flag, [] => ⟨ts, last, flag, []⟩
  | ts, last, flag, c :: cs =>
    let s := process_chunk end_marker i ts last flag c
    if c.getLastD 0 = end_marker then s
    else
      let r := process_chunks end_marker i s.ts s.last s.flag cs
      ⟨r.ts, r.last, r.flag, s.evs ++ r.evs⟩

/-- One (target, chunk list) block of a poll round (mtail-f.c:355-408):
fetch target i's state, reset print_file_name to
need_to_print_file_name, run the inner loop, store back the state. -/
def process_block (end_marker : Nat) (need : Bool)
    (sts : List (file_data (List Nat))) (last : Int)
    (blk : Nat × List (List Nat)) :
    List (file_data (List Nat)) × Int × List (fevent (List Nat)) :=
  let s := process_chunks end_marker blk.1 (sts.getD blk.1 default) last need blk.2
  (sts.set blk.1 s.ts, s.last, s.evs)

/-- A run of the poll loop as a sequence of blocks, threading the target
states and last_file_printed (initially -1 at mtail-f.c:330). -/
def process_blocks (end_marker : Nat) (need : Bool) :
    List (file_data (List Nat)) → Int → List (Nat × List (List Nat)) →
    List (file_data (List Nat)) × Int × List (fevent (List Nat))
  | sts, last, [] => (sts, last, [])
  | sts, last, b :: bs =>
    let r := process_block end_marker need sts last b
    let rest := process_blocks end_marker need r.1 r.2.1 bs
    (rest.1, rest.2.1, r.2.2 ++ rest.2.2)

/-- The lifetime chunk trace of a single target: every chunk the loop ever
reads for it (across rounds) goes through the same loop body; header state
is irrelevant here (flag fixed to false), so only emit/drain events appear. -/
def process_target (end_marker : Nat) :
    file_data (List Nat) → List (List Nat) →
    file_data (List Nat) × List (fevent (List Nat))
  | ts, [] => (ts, [])
  | ts, c :: cs =>
    let s := process_chunk end_marker 0 ts (-1) false c
    let r := process_target end_marker s.ts cs
    (r.1, s.evs ++ r.2)

/-- Number of buffer drains in an event trace. -/
def drain_count {α : Type} (evs : List (fevent α)) : Nat :=
  evs.countP fun e =>
    match e with
    | fevent.drain _ _ => true
    | _ => false

/-- Directly emitted records (target, record) in an event trace. -/
def emits_of {α : Type} (evs : List (fevent α)) : List (Nat × α) :=
  evs.filterMap fun e =>
    match e with
    | fevent.emit j r => some (j, r)
    | _ => none

/-- Targets of the header lines in an event trace, in order. -/
def headers_of {α : Type} (evs : List (fevent α)) : List Nat :=
  evs.filterMap fun e =>
    match e with
    | fevent.header j => some j
    | _ => none

/-- Targets whose content actually reaches stdout, in order: direct emits,
and drains that print at least one record. -/
def content_targets_of {α : Type} (evs : List (fevent α)) : List Nat :=
  evs.filterMap fun e =>
    match e with
    | fevent.emit j _ => some j
    | fevent.drain j out => if out.isEmpty then none else some j
    | _ => none

/-- Collapse consecutive duplicates against a running previous value
(initially -1, the initial last_file_printed). -/
def changes : Int → List Nat → List Nat
  | _, [] => []
  | prev, t :: ts => if prev = (t : Int) then changes prev ts else t :: changes (t : Int) ts

/-- The chunks of a block that the inner loop actually processes: up to and
including the first chunk whose last byte is the end_marker (the break). -/
def effective_chunks (end_marker : Nat) : List (List Nat) → List (List Nat)
  | [] => []
  | c :: cs =>
    if c.getLastD 0 = end_marker then [c] else c :: effective_chunks end_marker cs

/-- A chunk passes the filler filter when its first byte is not the marker
(mtail-f.c:366). -/
def passing (end_marker : Nat) (c : List Nat) : Bool := c.headD 0 != end_marker

/-- Whether a block contains at least one processed passing chunk. -/
def any_passing (end_marker : Nat) (cs : List (List Nat)) : Bool :=
  (effective_chunks end_marker cs).any (passing end_marker)

/-- Target index of each processed passing chunk of a block run, in order. -/
def pass_targets (end_marker : Nat) (blocks : List (Nat × List (List Nat))) :
    List Nat :=
  blocks.flatMap fun b =>
    ((effective_chunks end_marker b.2).filter (passing end_marker)).map fun _ => b.1

/-- need_to_print_file_name (mtail-f.c:347-348). -/
def need_to_print_file_name (quiet : Bool) (num_files : Nat) : Bool :=
  !quiet && decide (1 < num_files)

/-- open_files (mtail-f.c:133-151) on its first call (all handles NULL),
abstracted over which files are openable.  Returns the per-file open flags
after the call and the success flag: on the first unopenable file,
close_files closes every file opened so far and false is returned, so a
file's flag ends up true only when it was opened and the whole call
succeeded. -/
def open_files : List Bool → List Bool × Bool
  | [] => ([], true)
  | ok :: rest =>
    if ok then
      let r := open_files rest
      ((if r.2 then true else false) :: r.1, r.2)
    else
      (false :: rest.map fun _ => false, false)

/-- EXIT_SUCCESS. -/
def EXIT_SUCCESS : Nat := 0

/-- print_file_content (mtail-f.c:322-420) control result: the function
returns true on every path; an open_files failure only breaks out of the
poll loop (mtail-f.c:351-354) and still falls through to return true. -/
def print_file_content_result (openable : List Bool) : Bool :=
  if (open_files openable).2 then true else true

/-- main (mtail-f.c:422-430): calls print_file_content, discards its result,
and returns EXIT_SUCCESS unconditionally. -/
def main_exit_code (openable : List Bool) : Nat :=
  let _ := print_file_content_result openable
  EXIT_SUCCESS

/-! Helper lemmas. -/

theorem find_from_first (buf : Nat → Nat) (em : Nat) (i : Nat) (hi : buf i = em) :
    ∀ r s, s ≤ i → i ≤ s + r → (∀ j, s ≤ j → j < i → buf j ≠ em) →
      find_from buf em s r = i := by
  intro r
  induction r with
  | zero =>
    intro s h1 h2 _
    have hsi : s = i := by omega
    subst hsi
    rfl
  | succ r ih =>
    intro s h1 h2 hbelow
    by_cases hsi : s = i
    · subst hsi
      simp [find_from, hi]
    · have hlt : s < i := by omega
      have hne : buf s ≠ em := hbelow s le_rfl hlt
      simp only [find_from]
      rw [if_pos hne]
      exact ih (s + 1) (by omega) (by omega) fun j hj1 hj2 => hbelow j (by omega) hj2

theorem find_from_none (buf : Nat → Nat) (em : Nat) :
    ∀ r s, (∀ j, s ≤ j → j < s + r → buf j ≠ em) → find_from buf em s r = s + r := by
  intro r
  induction r with
  | zero => intro s _; rfl
  | succ r ih =>
    intro s hnone
    have hne : buf s ≠ em := hnone s le_rfl (by omega)
    simp only [find_from]
    rw [if_pos hne]
    have h2 := ih (s + 1) fun j hj1 hj2 => hnone j (by omega) (by omega)
    omega

theorem find_end_index_first (buf : Nat → Nat) (em : Nat) (limit i : Nat)
    (hilt : i < limit) (hbelow : ∀ j, j < i → buf j ≠ em) (hi : buf i = em) :
    find_end_index buf em limit = (i : Int) := by
  have h := find_from_first buf em i hi limit 0 (Nat.zero_le i) (by omega)
    fun j _ hj => hbelow j hj
  simp [find_end_index, h, hi]

theorem print_ring_buffer_fst_line {α : Type} (rb : ring_buffer α) :
    ((print_ring_buffer rb).1).line = none := by
  obtain ⟨li, cap, sz, line⟩ := rb
  cases line with
  | none => rfl
  | some arr => rfl

theorem print_ring_buffer_of_line_none {α : Type} (rb : ring_buffer α)
    (h : rb.line = none) : print_ring_buffer rb = (rb, []) := by
  obtain ⟨li, cap, sz, line⟩ := rb
  cases line with
  | none => rfl
  | some arr => simp at h

/-! Claim theorems. -/

/-- C1: for a chunk of length L whose last byte equals the filler marker
and whose first marker occurrence is at offset i < L, the computed rewind
distance move_by equals L - i, and seeking backward by move_by from the
post-read cursor position pos + L lands on pos + i, the first marker byte
of the chunk. -/
theorem mtail_C1_rewind (buf : Nat → Nat) (em L i pos : Nat)
    (hiL : i < L) (hfirst : ∀ j, j < i → buf j ≠ em) (hi : buf i = em)
    (_hlast : buf (L - 1) = em) :
    move_by buf em L = (L : Int) - (i : Int) ∧
    cursor_after_rewind pos buf em L = (pos : Int) + (i : Int) := by
  have hfe : find_end_index buf em L = (i : Int) :=
    find_end_index_first buf em L i hiL hfirst hi
  constructor
  · simp [move_by, hfe]
  · simp only [cursor_after_rewind, move_by, hfe]
    omega

/-- C1 witness: chunk bytes 5,9,9 (L = 3), marker 9, first occurrence at
offset 1, read from position 7. -/
theorem mtail_C1_rewind_witness :
    move_by (fun j => if j = 0 then 5 else 9) 9 3 = (3 : Int) - (1 : Int) ∧
    cursor_after_rewind 7 (fun j => if j = 0 then 5 else 9) 9 3 =
      (7 : Int) + (1 : Int) :=
  mtail_C1_rewind (fun j => if j = 0 then 5 else 9) 9 3 1 7 (by decide)
    (fun j hj => by
      have hj0 : j = 0 := by omega
      subst hj0
      decide)
    (by decide) (by decide)

/-- C5 counterexample: with buffer bytes 1,7,7,..., marker 7 and limit 1,
none of the first limit bytes equals the marker (byte 0 is 1), yet
find_end_index returns 1 — the loop condition reads buf[limit] before
testing i < limit, so the result is neither a first-marker offset below
the limit nor the not-found value -1. -/
theorem mtail_C5_cex :
    (fun j : Nat => if j = 0 then 1 else 7) 0 ≠ 7 ∧
    find_end_index (fun j => if j = 0 then 1 else 7) 7 1 = 1 := by
  constructor
  · decide
  · decide

/-- C5 (amended): find_end_index returns the offset of the first marker
byte when one exists among the first limit bytes; when none of the first
limit bytes equals the marker it additionally examines the byte at offset
limit, returning limit if that byte equals the marker and -1 otherwise.
The function is pure. -/
theorem mtail_C5_scan (buf : Nat → Nat) (em limit : Nat) :
    (∀ i, i < limit → (∀ j, j < i → buf j ≠ em) → buf i = em →
      find_end_index buf em limit = (i : Int)) ∧
    ((∀ j, j < limit → buf j ≠ em) →
      find_end_index buf em limit = if buf limit = em then (limit : Int) else -1) := by
  constructor
  · intro i hilt hbelow hi
    exact find_end_index_first buf em limit i hilt hbelow hi
  · intro hnone
    have h := find_from_none buf em limit 0 fun j _ hj => hnone j (by omega)
    simp only [Nat.zero_add] at h
    simp [find_end_index, h]

/-- C5 witness: marker 9; buffer 3,9,9,... with limit 2 finds offset 1;
constant buffer 3,3,3,... with limit 2 has no marker anywhere, result -1. -/
theorem mtail_C5_scan_witness :
    find_end_index (fun j => if j = 0 then 3 else 9) 9 2 = 1 ∧
    find_end_index (fun _ => 3) 9 2 = -1 := by
  constructor
  · exact (mtail_C5_scan (fun j => if j = 0 then 3 else 9) 9 2).1 1 (by decide)
      (fun j hj => by
        have hj0 : j = 0 := by omega
        subst hj0
        decide)
      (by decide)
  · have h := (mtail_C5_scan (fun _ => 3) 9 2).2 fun j _ => by decide
    simpa using h

/-- C6: the code contradicts the claim (and its own header comment,
mtail-f.c:24-26).  open_files does close every file opened so far and
reports failure (first two conjuncts: the final open flags are all false
exactly when some open failed, and success means every file was openable),
and an open failure does end the run (the poll loop breaks), but main then
returns EXIT_SUCCESS = 0 unconditionally, so the process exit code is 0
even when files could not be opened — evaluated at the failing input of a
single unopenable file in the last conjunct. -/
theorem mtail_C6_exit_code :
    (∀ l : List Bool,
      (open_files l).1 = l.map (fun _ => (open_files l).2) ∧
      (open_files l).2 = l.all id) ∧
    (∀ l : List Bool, main_exit_code l = EXIT_SUCCESS) ∧
    EXIT_SUCCESS = 0 ∧
    main_exit_code [false] = 0 := by
  refine ⟨?_, fun _ => rfl, rfl, rfl⟩
  intro l
  induction l with
  | nil => exact ⟨rfl, rfl⟩
  | cons ok rest ih =>
    obtain ⟨ih1, ih2⟩ := ih
    cases ok with
    | false => simp [open_files]
    | true =>
      cases h2 : rest.all id with
      | false =>
        have hof : (open_files rest).2 = false := by rw [ih2, h2]
        rw [hof] at ih1
        constructor
        · show (if (open_files rest).2 then true else false) :: (open_files rest).1 =
            (true :: rest).map fun _ => (open_files rest).2
          rw [hof, ih1]
          rfl
        · show (open_files rest).2 = (true :: rest).all id
          rw [hof, List.all_cons, h2]
          rfl
      | true =>
        have hof : (open_files rest).2 = true := by rw [ih2, h2]
        rw [hof] at ih1
        constructor
        · show (if (open_files rest).2 then true else false) :: (open_files rest).1 =
            (true :: rest).map fun _ => (open_files rest).2
          rw [hof, ih1]
          rfl
        · show (open_files rest).2 = (true :: rest).all id
          rw [hof, List.all_cons, h2]
          rfl

/-- The record written by enqueue lands at slot enqueue_slot_index rb:
the model's stored latest_index is exactly that slot (mtail-f.c:165). -/
theorem enqueue_stores_at_slot {α : Type} (rb : ring_buffer α) (v : α) :
    (enqueue rb v).latest_index = enqueue_slot_index rb := rfl

/-- C7 (code_bug evidence): on the capacity-0 buffer the slot index enqueue
uses evaluates to 0, but ring_buffer_init 0 allocated a line array with no
slots (capacity 0), so the C access rb->line[0] in enqueue
(mtail-f.c:166-176) is out of bounds of the malloc(0) allocation — an
unguarded out-of-bounds read of uninitialized memory followed by a store
through (or free of) that garbage slot: undefined behavior, not the no-op
the claim requires.  The drain half of the claim does hold: draining the
capacity-0 buffer emits nothing.  (print_file_content never reaches the
broken case: num_lines == 0 sets end_reached at initialization, so enqueue
is only ever called with capacity at least 1.) -/
theorem mtail_C7_zero_capacity_oob {α : Type} :
    enqueue_slot_index (ring_buffer_init 0 : ring_buffer α) = 0 ∧
    (ring_buffer_init 0 : ring_buffer α).line = some [] ∧
    ¬ enqueue_slot_index (ring_buffer_init 0 : ring_buffer α) <
        (ring_buffer_init 0 : ring_buffer α).capacity ∧
    (print_ring_buffer (ring_buffer_init 0 : ring_buffer α)).2 = [] :=
  ⟨rfl, rfl, fun h => absurd h (Nat.lt_irrefl 0), rfl⟩

/-- C10: draining is idempotent: after any drain the record array is none
(freed), and a drain of a buffer whose array is none returns immediately,
emitting nothing and changing nothing. -/
theorem mtail_C10_drain_idempotent {α : Type} (rb : ring_buffer α) :
    (print_ring_buffer rb).1.line = none ∧
    print_ring_buffer (print_ring_buffer rb).1 =
      ((print_ring_buffer rb).1, ([] : List (Option α))) := by
  refine ⟨print_ring_buffer_fst_line rb, ?_⟩
  exact print_ring_buffer_of_line_none _ (print_ring_buffer_fst_line rb)

/-! Ring-buffer state characterization (for the buffer-order claim). -/

theorem set_append_length {β : Type} (l1 l2 : List β) (a : β) :
    (l1 ++ l2).set l1.length a = l1 ++ l2.set 0 a := by
  induction l1 with
  | nil => rfl
  | cons x xs ih =>
    show x :: (xs ++ l2).set xs.length a = x :: (xs ++ l2.set 0 a)
    rw [ih]

theorem set_append_index {β : Type} (l1 l2 : List β) (a : β) (n : Nat)
    (h : n = l1.length) : (l1 ++ l2).set n a = l1 ++ l2.set 0 a := by
  rw [h, set_append_length]

theorem drop_eq_getD_cons {β : Type} (d : β) (l : List β) :
    ∀ j, j < l.length → l.drop j = l.getD j d :: l.drop (j + 1) := by
  induction l with
  | nil => intro j h; simp at h
  | cons x xs ih =>
    intro j h
    cases j with
    | zero => rfl
    | succ j =>
      have h2 : j < xs.length := by simp at h; omega
      show xs.drop j = xs.getD j d :: xs.drop (j + 1)
      exact ih j h2

theorem read_slots_no_wrap {α : Type} (arr : List (Option α)) (s : Nat)
    (hs : s ≤ arr.length) :
    ∀ k o, o + k ≤ s → read_slots arr s o k = (arr.drop o).take k := by
  intro k
  induction k with
  | zero => intro o _; rfl
  | succ k ih =>
    intro o h
    have ho1 : ¬ s ≤ o := by omega
    simp only [read_slots]
    rw [if_neg ho1, ih (o + 1) (by omega), drop_eq_getD_cons none arr o (by omega)]
    rfl

theorem read_slots_split {α : Type} (arr : List (Option α)) (s : Nat) :
    ∀ k1 k2 o, o + k1 ≤ s →
      read_slots arr s o (k1 + k2) =
        read_slots arr s o k1 ++ read_slots arr s (o + k1) k2 := by
  intro k1
  induction k1 with
  | zero => intro k2 o _; simp [read_slots]
  | succ k1 ih =>
    intro k2 o h
    have ho1 : ¬ s ≤ o := by omega
    have he : k1 + 1 + k2 = (k1 + k2) + 1 := by omega
    rw [he]
    simp only [read_slots]
    rw [if_neg ho1, ih k2 (o + 1) (by omega)]
    have harith : o + 1 + k1 = o + (k1 + 1) := by omega
    rw [harith]
    rfl

theorem read_slots_wrap0 {α : Type} (arr : List (Option α)) (s : Nat)
    (hs : s ≤ arr.length) :
    ∀ k, k ≤ s → ∀ o, s ≤ o → read_slots arr s o k = arr.take k := by
  intro k hk o hso
  cases k with
  | zero => rfl
  | succ k =>
    simp only [read_slots]
    rw [if_pos hso, read_slots_no_wrap arr s hs k 1 (by omega)]
    cases arr with
    | nil => simp at hs; omega
    | cons a as => rfl

theorem read_slots_full {α : Type} (arr : List (Option α)) (s o : Nat)
    (hs : s = arr.length) (ho : o ≤ s) :
    read_slots arr s o s = arr.drop o ++ arr.take o := by
  have he : s = (s - o) + o := by omega
  rw [show read_slots arr s o s = read_slots arr s o ((s - o) + o) from by rw [← he]]
  rw [read_slots_split arr s (s - o) o o (by omega)]
  have ho2 : o + (s - o) = s := by omega
  rw [ho2]
  rw [read_slots_no_wrap arr s (by omega) (s - o) o (by omega)]
  rw [read_slots_wrap0 arr s (by omega) o (by omega) s le_rfl]
  have hdl : (arr.drop o).length = s - o := by rw [List.length_drop, hs]
  rw [← hdl, List.take_length]

theorem mod_step (n C : Nat) (hC : 1 ≤ C) :
    (if C ≤ n % C + 1 then 0 else n % C + 1) = (n + 1) % C := by
  have h1 : n % C < C := Nat.mod_lt _ (by omega)
  have h2 : (n + 1) % C = (n % C + 1) % C := by
    conv_lhs => rw [← Nat.mod_add_mod]
  by_cases h : C ≤ n % C + 1
  · have h3 : n % C + 1 = C := by omega
    rw [if_pos h, h2, h3, Nat.mod_self]
  · have h4 : (n % C + 1) % C = n % C + 1 := Nat.mod_eq_of_lt (by omega)
    rw [if_neg h, h2, h4]

theorem rotate_set_zero {β : Type} (l : List β) (j : Nat) (a : β) (h : j < l.length) :
    (l.set j a).rotate j = (l.rotate j).set 0 a := by
  have hle : j ≤ l.length := le_of_lt h
  have hle2 : j ≤ (l.set j a).length := by simpa using hle
  rw [List.rotate_eq_drop_append_take hle2, List.rotate_eq_drop_append_take hle]
  rw [List.set_eq_take_cons_drop a h]
  have hlt : (l.take j).length = j := by rw [List.length_take]; omega
  rw [List.drop_left' hlt, List.take_left' hlt]
  rw [List.drop_eq_getElem_cons h]
  rfl

theorem foldl_enqueue_underfull {α : Type} (C : Nat) :
    ∀ rs : List α, rs.length ≤ C →
      rs.foldl enqueue (ring_buffer_init C) =
        { latest_index := if rs.length = 0 then C else rs.length - 1,
          capacity := C, size := rs.length,
          line := some (rs.map some ++ List.replicate (C - rs.length) none) } := by
  intro rs
  induction rs using List.reverseRecOn with
  | nil => intro _; simp [ring_buffer_init]
  | append_singleton rs v ih =>
    intro hlen
    have hn : rs.length < C := by simp at hlen; omega
    rw [List.foldl_append, List.foldl_cons, List.foldl_nil, ih (by omega)]
    have hli : (if C ≤ (if rs.length = 0 then C else rs.length - 1) + 1 then 0
        else (if rs.length = 0 then C else rs.length - 1) + 1) = rs.length := by
      by_cases h0 : rs.length = 0
      · rw [if_pos h0, if_pos (by omega)]
        omega
      · rw [if_neg h0, if_neg (by omega)]
        omega
    have hset : (rs.map some ++ List.replicate (C - rs.length) none).set rs.length (some v) =
        (rs ++ [v]).map some ++ List.replicate (C - (rs ++ [v]).length) none := by
      rw [set_append_index (rs.map some) _ (some v) rs.length (by simp)]
      have hcn : C - rs.length = (C - (rs.length + 1)) + 1 := by omega
      rw [hcn, List.replicate_succ]
      simp
    simp only [enqueue, enqueue_slot_index]
    rw [hli]
    simp only [Option.map_some']
    rw [hset]
    simp only [ring_buffer.mk.injEq]
    refine ⟨?_, trivial, ?_, trivial⟩
    · simp
    · rw [if_pos hn]
      simp

theorem foldl_enqueue_full {α : Type} (C : Nat) (hC : 1 ≤ C) :
    ∀ rs : List α, C ≤ rs.length →
      ∃ arr : List (Option α),
        rs.foldl enqueue (ring_buffer_init C) =
          { latest_index := (rs.length - 1) % C, capacity := C, size := C,
            line := some arr } ∧
        arr.length = C ∧
        arr.rotate (rs.length % C) = (rs.drop (rs.length - C)).map some := by
  intro rs
  induction rs using List.reverseRecOn with
  | nil => intro h; simp at h; omega
  | append_singleton rs v ih =>
    intro hlen
    by_cases hcase : C ≤ rs.length
    · obtain ⟨arr, hst, hal, hrot⟩ := ih hcase
      have hn1 : 1 ≤ rs.length := by omega
      refine ⟨arr.set (rs.length % C) (some v), ?_, ?_, ?_⟩
      · rw [List.foldl_append, List.foldl_cons, List.foldl_nil, hst]
        have hli : (if C ≤ (rs.length - 1) % C + 1 then 0
            else (rs.length - 1) % C + 1) = rs.length % C := by
          rw [mod_step (rs.length - 1) C hC]
          congr 1
          omega
        simp only [enqueue, enqueue_slot_index]
        rw [hli]
        simp only [Option.map_some']
        simp only [ring_buffer.mk.injEq]
        refine ⟨?_, trivial, ?_, trivial⟩
        · simp
        · simp
      · simpa using hal
      · have hjlt : rs.length % C < arr.length := by
          rw [hal]
          exact Nat.mod_lt _ (by omega)
        have hset := rotate_set_zero arr (rs.length % C) (some v) hjlt
        have hsl : (arr.set (rs.length % C) (some v)).length = C := by simpa using hal
        have hr1 := List.rotate_mod (arr.set (rs.length % C) (some v))
          (rs.length % C + 1)
        rw [hsl] at hr1
        have hm : (rs.length % C + 1) % C = (rs.length + 1) % C := by
          rw [Nat.mod_add_mod]
        rw [hm] at hr1
        have hlen2 : (rs ++ [v]).length = rs.length + 1 := by simp
        rw [hlen2, hr1, ← List.rotate_rotate, hset, hrot]
        have hne : rs.drop (rs.length - C) ≠ [] := by
          have hld : (rs.drop (rs.length - C)).length = C := by simp; omega
          intro hh
          rw [hh] at hld
          simp at hld
          omega
        obtain ⟨h0, t0, ht0⟩ := List.exists_cons_of_ne_nil hne
        rw [ht0]
        have hrhs : (rs ++ [v]).drop (rs.length + 1 - C) = t0 ++ [v] := by
          rw [List.drop_append_of_le_length (by omega)]
          have hdd : rs.drop (rs.length + 1 - C) = (rs.drop (rs.length - C)).drop 1 := by
            rw [List.drop_drop]
            congr 1
            omega
          rw [hdd, ht0]
          rfl
        rw [hrhs]
        simp [List.rotate_cons_succ]
    · have hrs1 : rs.length + 1 = C := by
        simp at hlen
        omega
      have hfin : (rs ++ [v]).length = C := by
        simp
        omega
      have hund := foldl_enqueue_underfull C (rs ++ [v]) (by omega)
      refine ⟨(rs ++ [v]).map some ++ List.replicate (C - (rs ++ [v]).length) none,
        ?_, ?_, ?_⟩
      · rw [hund]
        simp only [ring_buffer.mk.injEq]
        refine ⟨?_, trivial, hfin, trivial⟩
        have hm : (C - 1) % C = C - 1 := Nat.mod_eq_of_lt (by omega)
        rw [if_neg (by simp), hfin, hm]
      · rw [hfin]
        simp
        omega
      · rw [hfin, Nat.mod_self, List.rotate_zero, Nat.sub_self, List.drop_zero]
        simp

/-- C3: after more than C enqueues into a capacity-C buffer (C at least 1),
a drain outputs exactly the last C enqueued records, oldest first (earlier
records were overwritten and never appear); the second conjunct records
that exactly C records come out. -/
theorem mtail_C3_ring_order {α : Type} (C : Nat) (hC : 1 ≤ C) (rs : List α)
    (h : C < rs.length) :
    (print_ring_buffer (rs.foldl enqueue (ring_buffer_init C))).2 =
      (rs.drop (rs.length - C)).map some ∧
    ((rs.drop (rs.length - C)).map some).length = C := by
  obtain ⟨arr, hst, hal, hrot⟩ := foldl_enqueue_full C hC rs (le_of_lt h)
  rw [hst]
  constructor
  · show read_slots arr C ((rs.length - 1) % C + 1) C = _
    have hml : (rs.length - 1) % C < C := Nat.mod_lt _ (by omega)
    rw [read_slots_full arr C _ hal.symm (by omega)]
    rw [← List.rotate_eq_drop_append_take (by omega : (rs.length - 1) % C + 1 ≤ arr.length)]
    have h1 := List.rotate_mod arr ((rs.length - 1) % C + 1)
    rw [hal] at h1
    have h2 : ((rs.length - 1) % C + 1) % C = rs.length % C := by
      rw [Nat.mod_add_mod]
      congr 1
      omega
    rw [h2] at h1
    rw [← h1, hrot]
  · simp
    omega

/-- C3 witness: capacity 2, enqueue 1,2,3; drain yields the last two
records 2,3 oldest first. -/
theorem mtail_C3_ring_order_witness :
    (print_ring_buffer ([1, 2, 3].foldl enqueue (ring_buffer_init 2))).2 =
      ([1, 2, 3].drop ([1, 2, 3].length - 2)).map some ∧
    (([1, 2, 3].drop ([1, 2, 3].length - 2)).map some).length = 2 :=
  mtail_C3_ring_order 2 (by decide) [1, 2, 3] (by decide)

/-! Per-chunk step lemmas for the boundary state machine. -/

theorem drain_count_append {α : Type} (a b : List (fevent α)) :
    drain_count (a ++ b) = drain_count a + drain_count b := by
  simp [drain_count]

theorem process_chunk_post (em i : Nat) (ts : file_data (List Nat)) (last : Int)
    (flag : Bool) (c : List Nat) (h : ts.end_reached = true) :
    (process_chunk em i ts last flag c).ts = ts ∧
    drain_count (process_chunk em i ts last flag c).evs = 0 := by
  simp only [process_chunk, phase1, phase2]
  split_ifs <;> simp_all [drain_count]

theorem process_chunk_transition (em i : Nat) (ts : file_data (List Nat)) (last : Int)
    (flag : Bool) (c : List Nat) (h : ts.end_reached = false)
    (hl : c.getLastD 0 = em) :
    (process_chunk em i ts last flag c).ts.end_reached = true ∧
    (process_chunk em i ts last flag c).ts.delim = em ∧
    (process_chunk em i ts last flag c).ts.rb.line = none ∧
    drain_count (process_chunk em i ts last flag c).evs = 1 := by
  simp only [process_chunk, phase1, phase2]
  split_ifs <;> simp_all [drain_count, print_ring_buffer_fst_line]

theorem process_chunk_pre_no_marker (em i : Nat) (ts : file_data (List Nat))
    (last : Int) (flag : Bool) (c : List Nat) (h : ts.end_reached = false)
    (hl : ¬ c.getLastD 0 = em) :
    (process_chunk em i ts last flag c).ts.end_reached = false ∧
    drain_count (process_chunk em i ts last flag c).evs = 0 := by
  simp only [process_chunk, phase1, phase2]
  split_ifs <;> simp_all [drain_count]

theorem process_target_post (em : Nat) :
    ∀ cs ts, ts.end_reached = true →
      (process_target em ts cs).1 = ts ∧
      drain_count (process_target em ts cs).2 = 0 := by
  intro cs
  induction cs with
  | nil => intro ts _; exact ⟨rfl, rfl⟩
  | cons c cs ih =>
    intro ts h
    obtain ⟨h1, h2⟩ := process_chunk_post em 0 ts (-1) false c h
    have h3 : (process_chunk em 0 ts (-1) false c).ts.end_reached = true := by
      rw [h1]
      exact h
    obtain ⟨ih1, ih2⟩ := ih _ h3
    simp only [process_target]
    constructor
    · rw [ih1, h1]
    · rw [drain_count_append, h2, ih2]

theorem process_target_drains (em : Nat) :
    ∀ cs ts, ts.end_reached = false →
      drain_count (process_target em ts cs).2 ≤ 1 := by
  intro cs
  induction cs with
  | nil => intro ts _; simp [process_target, drain_count]
  | cons c cs ih =>
    intro ts h
    simp only [process_target]
    rw [drain_count_append]
    by_cases hl : c.getLastD 0 = em
    · obtain ⟨ht, _, _, hd1⟩ := process_chunk_transition em 0 ts (-1) false c h hl
      obtain ⟨_, hr0⟩ := process_target_post em cs _ ht
      omega
    · obtain ⟨hf, hd0⟩ := process_chunk_pre_no_marker em 0 ts (-1) false c h hl
      have := ih _ hf
      omega

theorem process_chunk_inv (em : Nat) (ts : file_data (List Nat)) (c : List Nat)
    (h : (ts.end_reached = false) ↔ ts.rb.line ≠ none) :
    ((process_chunk em 0 ts (-1) false c).ts.end_reached = false ↔
      (process_chunk em 0 ts (-1) false c).ts.rb.line ≠ none) := by
  simp only [process_chunk, phase1, phase2]
  split_ifs <;> simp_all [enqueue, print_ring_buffer_fst_line]

theorem process_target_inv (em : Nat) :
    ∀ cs ts, ((ts.end_reached = false) ↔ ts.rb.line ≠ none) →
      ((process_target em ts cs).1.end_reached = false ↔
        (process_target em ts cs).1.rb.line ≠ none) := by
  intro cs
  induction cs with
  | nil => intro ts h; exact h
  | cons c cs ih =>
    intro ts h
    simp only [process_target]
    exact ih _ (process_chunk_inv em ts c h)

/-- C2: the pre-to-post boundary transition is one-way and drains at most
once.  First conjunct: a post-boundary target is never changed again by any
later chunk (so it never re-enters pre-boundary) and no further drain ever
happens.  Second conjunct: over a pre-boundary target's whole chunk trace
the buffer is drained at most once.  Third conjunct: the first chunk whose
last byte is the filler marker while still pre-boundary fires the
transition: the buffer is drained (exactly one drain event, and the
buffer's array is freed), the flag flips to post-boundary, and the active
delimiter is switched to the marker. -/
theorem mtail_C2_one_way (em : Nat) (ts : file_data (List Nat)) (cs : List (List Nat)) :
    (ts.end_reached = true →
      (process_target em ts cs).1 = ts ∧
      drain_count (process_target em ts cs).2 = 0) ∧
    (ts.end_reached = false → drain_count (process_target em ts cs).2 ≤ 1) ∧
    (ts.end_reached = false → ∀ c, c.getLastD 0 = em →
      (process_chunk em 0 ts (-1) false c).ts.end_reached = true ∧
      (process_chunk em 0 ts (-1) false c).ts.delim = em ∧
      (process_chunk em 0 ts (-1) false c).ts.rb.line = none ∧
      drain_count (process_chunk em 0 ts (-1) false c).evs = 1) :=
  ⟨fun h => process_target_post em cs ts h,
   fun h => process_target_drains em cs ts h,
   fun h c hl => process_chunk_transition em 0 ts (-1) false c h hl⟩

/-- C2 witness: marker 0, one pre-boundary target (num_lines 1), chunk 5,0
whose last byte is the marker. -/
theorem mtail_C2_one_way_witness :
    drain_count (process_target 0 (file_data_init 1 10) [[5, 0]]).2 ≤ 1 ∧
    (process_chunk 0 0 (file_data_init 1 10) (-1) false [5, 0]).ts.end_reached = true ∧
    (process_chunk 0 0 (file_data_init 1 10) (-1) false [5, 0]).ts.delim = 0 ∧
    (process_chunk 0 0 (file_data_init 1 10) (-1) false [5, 0]).ts.rb.line = none ∧
    drain_count (process_chunk 0 0 (file_data_init 1 10) (-1) false [5, 0]).evs = 1 := by
  have h := mtail_C2_one_way 0 (file_data_init 1 10) [[5, 0]]
  have h2 := h.2.1 (by decide)
  have h3 := h.2.2 (by decide) [5, 0] (by decide)
  exact ⟨h2, h3.1, h3.2.1, h3.2.2.1, h3.2.2.2⟩

/-- C4: a record whose first byte is the filler marker is neither written
to output (no emit and not even a header) nor enqueued: the buffer either
keeps exactly its previous array or, when this chunk also ends with the
marker while pre-boundary, the step only drains the previously stored
records (the array becomes none; the suppressed record was never added). -/
theorem mtail_C4_filler (em i : Nat) (ts : file_data (List Nat)) (last : Int)
    (flag : Bool) (c : List Nat) (_hne : c ≠ []) (hh : c.headD 0 = em) :
    emits_of (process_chunk em i ts last flag c).evs = [] ∧
    headers_of (process_chunk em i ts last flag c).evs = [] ∧
    ((process_chunk em i ts last flag c).ts.rb.line = ts.rb.line ∨
      (process_chunk em i ts last flag c).ts.rb.line = none) := by
  simp only [process_chunk, phase1, phase2, hh]
  split_ifs <;> simp_all [emits_of, headers_of, print_ring_buffer_fst_line]

/-- C4 witness: marker 0, pre-boundary target, filler-led chunk 0,3. -/
theorem mtail_C4_filler_witness :
    emits_of (process_chunk 0 0 (file_data_init 2 10) (-1) false [0, 3]).evs = [] ∧
    headers_of (process_chunk 0 0 (file_data_init 2 10) (-1) false [0, 3]).evs = [] ∧
    ((process_chunk 0 0 (file_data_init 2 10) (-1) false [0, 3]).ts.rb.line =
        (file_data_init 2 10 : file_data (List Nat)).rb.line ∨
      (process_chunk 0 0 (file_data_init 2 10) (-1) false [0, 3]).ts.rb.line = none) :=
  mtail_C4_filler 0 0 (file_data_init 2 10) (-1) false [0, 3] (by decide) (by decide)

/-- C9 counterexample: a target initialized with num_lines = 0 starts with
end_reached already true, yet its buffer's line array is a live (non-NULL)
zero-capacity allocation, so the buffer is not non-null exactly while the
flag is false. -/
theorem mtail_C9_cex :
    (file_data_init 0 10 : file_data (List Nat)).end_reached = true ∧
    (file_data_init 0 10 : file_data (List Nat)).rb.line ≠ none := by
  constructor
  · rfl
  · simp [file_data_init, ring_buffer_init]

/-- C9 (amended): for num_lines at least 1, the invariant holds along every
chunk trace: the line array is non-null exactly while end_reached is false
(so once the flag flips the array is freed and never reallocated).  For
num_lines = 0 the flag starts true while the zero-capacity array stays
allocated (and entirely untouched) for the target's whole lifetime. -/
theorem mtail_C9_buffer_lifetime (em num_lines d : Nat) (cs : List (List Nat)) :
    (1 ≤ num_lines →
      ((process_target em (file_data_init num_lines d) cs).1.end_reached = false ↔
        (process_target em (file_data_init num_lines d) cs).1.rb.line ≠ none)) ∧
    (num_lines = 0 →
      (process_target em (file_data_init num_lines d) cs).1.end_reached = true ∧
      (process_target em (file_data_init num_lines d) cs).1.rb.line = some []) := by
  constructor
  · intro h
    apply process_target_inv
    constructor
    · intro _
      simp [file_data_init, ring_buffer_init]
    · intro _
      simp [file_data_init]
      omega
  · intro h0
    subst h0
    have hpost := process_target_post em cs (file_data_init 0 d) rfl
    rw [hpost.1]
    exact ⟨rfl, rfl⟩

/-- C9 witness: the invariant instance for num_lines 1 and the num_lines 0
degenerate case, both on the chunk trace with the single chunk 5,2. -/
theorem mtail_C9_buffer_lifetime_witness :
    ((process_target 0 (file_data_init 1 10) [[5, 2]]).1.end_reached = false ↔
      (process_target 0 (file_data_init 1 10) [[5, 2]]).1.rb.line ≠ none) ∧
    ((process_target 0 (file_data_init 0 10) [[5, 2]]).1.end_reached = true ∧
      (process_target 0 (file_data_init 0 10) [[5, 2]]).1.rb.line = some []) :=
  ⟨(mtail_C9_buffer_lifetime 0 1 10 [[5, 2]]).1 (by decide),
   (mtail_C9_buffer_lifetime 0 0 10 [[5, 2]]).2 rfl⟩

/-! Header-printing characterization (for the multi-file header claim). -/

theorem headers_of_append {α : Type} (a b : List (fevent α)) :
    headers_of (a ++ b) = headers_of a ++ headers_of b := by
  simp [headers_of]

theorem process_chunk_headers (em i : Nat) (ts : file_data (List Nat)) (last : Int)
    (flag : Bool) (c : List Nat) :
    headers_of (process_chunk em i ts last flag c).evs =
      (if passing em c && (flag && last != (i : Int)) then [i] else []) ∧
    (process_chunk em i ts last flag c).last =
      (if passing em c && (flag && last != (i : Int)) then (i : Int) else last) ∧
    (process_chunk em i ts last flag c).flag =
      (if passing em c && (flag && last != (i : Int)) then false else flag) := by
  simp only [process_chunk, phase1, phase2, passing]
  split_ifs <;> simp_all [headers_of]

theorem filter_nil_of_any_false {β : Type} (p : β → Bool) (l : List β)
    (h : l.any p = false) : l.filter p = [] := by
  rw [List.filter_eq_nil_iff]
  intro a ha
  by_cases hpa : p a = true
  · have : l.any p = true := List.any_eq_true.mpr ⟨a, ha, hpa⟩
    rw [this] at h
    cases h
  · simpa using hpa

theorem filter_length_ne_zero_of_any {β : Type} (p : β → Bool) (l : List β)
    (h : l.any p = true) : (l.filter p).length ≠ 0 := by
  rw [List.any_eq_true] at h
  obtain ⟨x, hx, hpx⟩ := h
  have hmem : x ∈ l.filter p := List.mem_filter.mpr ⟨hx, hpx⟩
  intro h0
  rw [List.length_eq_zero] at h0
  rw [h0] at hmem
  exact absurd hmem (List.not_mem_nil x)

theorem changes_replicate_self (t : Nat) :
    ∀ k rest, changes (t : Int) (List.replicate k t ++ rest) = changes (t : Int) rest := by
  intro k
  induction k with
  | zero => intro rest; rfl
  | succ k ih =>
    intro rest
    simp [List.replicate_succ, changes, ih]

theorem changes_block (p : Int) (t : Nat) (k : Nat) (rest : List Nat) :
    changes p (List.replicate k t ++ rest) =
      (if k = 0 then changes p rest
       else if p = (t : Int) then changes (t : Int) rest
       else t :: changes (t : Int) rest) := by
  cases k with
  | zero => simp
  | succ k =>
    rw [List.replicate_succ, List.cons_append]
    by_cases hp : p = (t : Int)
    · rw [if_neg (by omega), if_pos hp]
      show (if p = (t : Int) then changes p (List.replicate k t ++ rest)
        else t :: changes (t : Int) (List.replicate k t ++ rest)) = changes (t : Int) rest
      rw [if_pos hp, hp, changes_replicate_self]
    · rw [if_neg (by omega), if_neg hp]
      show (if p = (t : Int) then changes p (List.replicate k t ++ rest)
        else t :: changes (t : Int) (List.replicate k t ++ rest)) =
          t :: changes (t : Int) rest
      rw [if_neg hp, changes_replicate_self]

theorem pass_targets_cons (em : Nat) (b : Nat × List (List Nat))
    (bs : List (Nat × List (List Nat))) :
    pass_targets em (b :: bs) =
      List.replicate ((effective_chunks em b.2).filter (passing em)).length b.1 ++
        pass_targets em bs := by
  simp [pass_targets, List.map_const']

theorem process_chunks_headers (em i : Nat) :
    ∀ (cs : List (List Nat)) (ts : file_data (List Nat)) (last : Int) (flag : Bool),
      (flag = false → last = (i : Int)) →
      headers_of (process_chunks em i ts last flag cs).evs =
        (if any_passing em cs && (last != (i : Int)) then [i] else []) ∧
      (process_chunks em i ts last flag cs).last =
        (if any_passing em cs then (i : Int) else last) := by
  intro cs
  induction cs with
  | nil =>
    intro ts last flag hinv
    constructor
    · simp [process_chunks, any_passing, effective_chunks, headers_of]
    · simp [process_chunks, any_passing, effective_chunks]
  | cons c cs ih =>
    intro ts last flag hinv
    obtain ⟨hh, hl, hf⟩ := process_chunk_headers em i ts last flag c
    by_cases hbr : c.getLastD 0 = em
    · simp only [process_chunks, if_pos hbr]
      have hap : any_passing em (c :: cs) = passing em c := by
        simp only [any_passing, effective_chunks]
        rw [if_pos hbr]
        simp
      rw [hh, hl, hap]
      by_cases hfl : flag = true
      · subst hfl
        constructor
        · simp
        · by_cases hli : last = (i : Int)
          · simp [hli]
          · simp [hli]
      · have hfl2 : flag = false := by simpa using hfl
        have hlast := hinv hfl2
        subst hfl2
        constructor
        · simp [hlast]
        · simp [hlast]
    · simp only [process_chunks, if_neg hbr]
      have hap : any_passing em (c :: cs) = (passing em c || any_passing em cs) := by
        simp only [any_passing, effective_chunks]
        rw [if_neg hbr]
        simp
      have hinv2 : (process_chunk em i ts last flag c).flag = false →
          (process_chunk em i ts last flag c).last = (i : Int) := by
        rw [hf, hl]
        by_cases hc : (passing em c && (flag && last != (i : Int))) = true
        · rw [if_pos hc, if_pos hc]
          intro _
          rfl
        · rw [if_neg hc, if_neg hc]
          exact hinv
      obtain ⟨ihh, ihl⟩ := ih (process_chunk em i ts last flag c).ts
        (process_chunk em i ts last flag c).last (process_chunk em i ts last flag c).flag
        hinv2
      rw [headers_of_append, ihh, ihl, hh, hl, hap]
      constructor
      · by_cases hp : passing em c = true <;> by_cases hfl : flag = true <;>
          by_cases hli : last = (i : Int) <;> by_cases ha : any_passing em cs = true <;>
          simp_all
      · by_cases hp : passing em c = true <;> by_cases hfl : flag = true <;>
          by_cases hli : last = (i : Int) <;> by_cases ha : any_passing em cs = true <;>
          simp_all

theorem process_block_headers (em : Nat) (sts : List (file_data (List Nat)))
    (last : Int) (blk : Nat × List (List Nat)) :
    headers_of (process_block em true sts last blk).2.2 =
      (if any_passing em blk.2 && (last != (blk.1 : Int)) then [blk.1] else []) ∧
    (process_block em true sts last blk).2.1 =
      (if any_passing em blk.2 then (blk.1 : Int) else last) :=
  process_chunks_headers em blk.1 blk.2 (sts.getD blk.1 default) last true
    (fun h => absurd h (by decide))

theorem process_blocks_headers (em : Nat) :
    ∀ (blocks : List (Nat × List (List Nat))) (sts : List (file_data (List Nat)))
      (last : Int),
      headers_of (process_blocks em true sts last blocks).2.2 =
        changes last (pass_targets em blocks) := by
  intro blocks
  induction blocks with
  | nil => intro sts last; rfl
  | cons b bs ih =>
    intro sts last
    obtain ⟨hh, hl⟩ := process_block_headers em sts last b
    simp only [process_blocks]
    rw [headers_of_append, hh, hl, ih ((process_block em true sts last b).1)
      (if any_passing em b.2 then (b.1 : Int) else last)]
    rw [pass_targets_cons em b bs, changes_block]
    cases ha : any_passing em b.2 with
    | false =>
      have hk : ((effective_chunks em b.2).filter (passing em)).length = 0 := by
        rw [filter_nil_of_any_false _ _ ha]
        rfl
      rw [hk]
      simp
    | true =>
      have hk := filter_length_ne_zero_of_any (passing em) (effective_chunks em b.2) ha
      rw [if_neg hk]
      by_cases hli : last = (b.1 : Int)
      · simp [hli]
      · simp [hli]

/-- C8 counterexample: two targets, quiet off, one block in which target 0
produces a single non-filler record while still pre-boundary.  The record
is only buffered, so no content at all reaches stdout, yet a header for
target 0 is printed — the header sequence does not equal the sequence of
changes of the target whose content is being emitted (which is empty
here), refuting the claim as stated. -/
theorem mtail_C8_cex :
    headers_of (process_blocks 0 (need_to_print_file_name false 2)
        [file_data_init 1 10, file_data_init 1 10] (-1) [(0, [[5, 1]])]).2.2 ≠
      changes (-1) (content_targets_of (process_blocks 0 (need_to_print_file_name false 2)
        [file_data_init 1 10, file_data_init 1 10] (-1) [(0, [[5, 1]])]).2.2) := by
  decide

/-- C8 (amended): with several targets and quiet off, a header for target i
is printed exactly each time the target producing a non-filler-leading
record changes — counting records that are merely buffered pre-boundary as
well as records that are emitted — and never repeated for consecutive such
records of the same target: the header trace equals the consecutive-change
collapse (against the initial last_file_printed of -1) of the per-record
target sequence.  Drained buffer content is written without any header. -/
theorem mtail_C8_headers (em : Nat) (quiet : Bool) (nf : Nat)
    (hneed : need_to_print_file_name quiet nf = true)
    (sts : List (file_data (List Nat))) (blocks : List (Nat × List (List Nat))) :
    headers_of (process_blocks em (need_to_print_file_name quiet nf) sts (-1) blocks).2.2 =
      changes (-1) (pass_targets em blocks) := by
  rw [hneed]
  exact process_blocks_headers em blocks sts (-1)

/-- C8 witness: two pre-boundary targets, quiet off, three blocks with
targets 0, 1, 1; the header trace equals the collapsed target-change
sequence 0, 1. -/
theorem mtail_C8_headers_witness :
    headers_of (process_blocks 0 (need_to_print_file_name false 2)
        [file_data_init 1 10, file_data_init 1 10] (-1)
        [(0, [[5, 1]]), (1, [[6, 2]]), (1, [[7, 3]])]).2.2 =
      changes (-1) (pass_targets 0 [(0, [[5, 1]]), (1, [[6, 2]]), (1, [[7, 3]])]) :=
  mtail_C8_headers 0 false 2 (by decide) [file_data_init 1 10, file_data_init 1 10]
    [(0, [[5, 1]]), (1, [[6, 2]]), (1, [[7, 3]])]
